import Mathlib

/-!
Shallow embedding of the URL-shortener core (app/models.py, app/utils.py,
app/main.py) and proofs of the specification claims.

Modelling conventions:
* Python dicts keyed by strings are association lists in insertion order;
  `dict.get` / `in` become `lookupKey` / `(lookupKey ..).isSome`.
* Every `URLStore` method runs entirely under `self._lock`, so each method is
  one atomic state transition; a concurrent execution is an arbitrary
  sequential interleaving of these atomic transitions.
* `datetime.now().isoformat()` is nondeterministic; it is passed in as an
  explicit `now : String` argument.
* `random.choice(characters)` is nondeterministic; the stream of random draws
  is passed in as an explicit function (one `Nat` index per draw, reduced
  modulo the alphabet size).
* Exceptions become `Except` values; `create_url_mapping` raises before any
  mutation, so it is modelled as returning the unchanged store on error.
* For claims about reference vs copy semantics of the returned dicts, a second
  model `RefURLStore` makes the heap explicit: the store maps codes to heap
  addresses and `get_url_mapping` returns the stored address itself, while
  `create_url_mapping` returns the address of a fresh copy (`url_data.copy()`).
-/

set_option autoImplicit false

/-- One URL record: the dict built by `URLStore.create_url_mapping`, with
fields in the order of the Python dict literal. -/
structure UrlRecord where
  original_url : String
  short_code : String
  clicks : Nat
  created_at : String
deriving DecidableEq, Repr

/-- The dict returned by `URLStore.get_stats`. -/
structure UrlStats where
  url : String
  clicks : Nat
  created_at : String
deriving DecidableEq, Repr

/-- The `ValueError` raised by `create_url_mapping` on a duplicate short code. -/
inductive StoreError where
  | duplicateCode (code : String)
deriving DecidableEq, Repr

/-- First-match lookup in an association list: models `dict.get` (keys of a
Python dict are unique, so first match is the match). -/
def lookupKey {β : Type} : List (String × β) → String → Option β
  | [], _ => none
  | (k, v) :: rest, key => if k = key then some v else lookupKey rest key

/-- The in-memory store `URLStore._urls` (the lock is implicit: every
operation below is one atomic transition). -/
structure URLStore where
  urls : List (String × UrlRecord)
deriving DecidableEq, Repr

/-- Model of `URLStore.get_url_mapping`: `self._urls.get(short_code)`. -/
def URLStore.get_url_mapping (s : URLStore) (code : String) : Option UrlRecord :=
  lookupKey s.urls code

/-- Model of `URLStore.url_exists`: `short_code in self._urls`. -/
def URLStore.url_exists (s : URLStore) (code : String) : Bool :=
  (lookupKey s.urls code).isSome

/-- Model of `URLStore.create_url_mapping`: check-then-insert under the lock; raises
`ValueError` (DuplicateCode) if the code exists, otherwise inserts the new
record and returns it. The raise happens before any mutation, so the error
case returns the store unchanged. -/
def URLStore.create_url_mapping (s : URLStore) (code url now : String) :
    Except StoreError UrlRecord × URLStore :=
  if s.url_exists code then
    (Except.error (StoreError.duplicateCode code), s)
  else
    let url_data : UrlRecord := ⟨url, code, 0, now⟩
    (Except.ok url_data, ⟨s.urls ++ [(code, url_data)]⟩)

/-- In-place `self._urls[short_code]['clicks'] += 1` on an association list:
the entry at the key gets its `clicks` field bumped, everything else is kept. -/
def bumpClicks (l : List (String × UrlRecord)) (code : String) :
    List (String × UrlRecord) :=
  l.map (fun p => if p.1 = code then (p.1, { p.2 with clicks := p.2.clicks + 1 }) else p)

/-- Model of `URLStore.increment_clicks`: bump the counter and return `true` if the
code exists, otherwise return `false` without touching the store. -/
def URLStore.increment_clicks (s : URLStore) (code : String) : Bool × URLStore :=
  if s.url_exists code then
    (true, ⟨bumpClicks s.urls code⟩)
  else
    (false, s)

/-- Model of `URLStore.get_stats`: project the record into the stats dict, `none` if
absent. Reads only; returns no new state. -/
def URLStore.get_stats (s : URLStore) (code : String) : Option UrlStats :=
  (lookupKey s.urls code).map (fun r => ⟨r.original_url, r.clicks, r.created_at⟩)

/-- Python whitespace test used by `str.strip()` (the ASCII part; `str.strip`
also strips some Unicode space characters, which no claim depends on). -/
def pyIsSpace (c : Char) : Bool :=
  c = ' ' || c = '\t' || c = '\n' || c = '\r' || c = '\x0b' || c = '\x0c'

/-- Python `str.strip()` on the character list: drop whitespace from both ends. -/
def pyStripList (l : List Char) : List Char :=
  ((l.dropWhile pyIsSpace).reverse.dropWhile pyIsSpace).reverse

/-- `sanitize_url`: `url.strip()`. -/
def sanitize_url (url : String) : String :=
  ⟨pyStripList url.data⟩

/-- Test whether the list begins with the given pattern of characters. -/
def beginsWith : List Char → List Char → Bool
  | [], _ => true
  | _ :: _, [] => false
  | p :: ps, c :: cs => decide (p = c) && beginsWith ps cs

/-- Model of `url.startswith(pat)` for a string pattern. -/
def strBeginsWith (s pat : String) : Bool :=
  beginsWith pat.data s.data

/-- Python `urllib.parse` removes ASCII tab, carriage return and newline from the URL
before splitting (`_UNSAFE_URL_BYTES_TO_REMOVE`). -/
def stripTabsNewlines (s : String) : String :=
  ⟨s.data.filter (fun c => !(c = '\t' || c = '\r' || c = '\n'))⟩

/-- A character that may appear in the authority: `urlsplit` ends the netloc
at the first `/`, `?` or `#`. -/
def netChar (c : Char) : Bool :=
  !(c = '/' || c = '?' || c = '#')

/-- Split a character list on a separator, Python `str.split(sep)` style:
the empty list yields one empty field, and adjacent separators yield empty
fields. -/
def splitChar (sep : Char) : List Char → List (List Char)
  | [] => [[]]
  | c :: cs =>
    let r := splitChar sep cs
    if c = sep then [] :: r
    else
      match r with
      | [] => [[c]]
      | h :: t => (c :: h) :: t

/-- An ASCII decimal digit. -/
def isDigitChar (c : Char) : Bool :=
  '0' ≤ c && c ≤ '9'

/-- An ASCII hexadecimal digit (`ipaddress._HEX_DIGITS`). -/
def isHexChar (c : Char) : Bool :=
  ('0' ≤ c && c ≤ '9') || ('a' ≤ c && c ≤ 'f') || ('A' ≤ c && c ≤ 'F')

/-- Model of `ipaddress.IPv4Address._parse_octet`: nonempty, ASCII digits
only, at most 3 characters, no leading zero unless the octet is `0`, value
at most 255. -/
def parseOctet (l : List Char) : Option Nat :=
  if l.isEmpty then none
  else if !(l.all isDigitChar) then none
  else if 3 < l.length then none
  else
    match l with
    | '0' :: _ :: _ => none
    | _ =>
      let v := l.foldl (fun acc c => acc * 10 + (c.toNat - '0'.toNat)) 0
      if 255 < v then none else some v

/-- Model of `ipaddress.IPv4Address` validity on host text: exactly four
valid octets separated by dots. -/
def isIPv4 (l : List Char) : Bool :=
  !l.isEmpty &&
    (let octs := splitChar '.' l
     decide (octs.length = 4) && octs.all (fun o => (parseOctet o).isSome))

/-- A valid hextet per `ipaddress._BaseV6._parse_hextet`: nonempty, hex
digits only, at most 4 characters. -/
def hextetOk (h : List Char) : Bool :=
  !h.isEmpty && h.all isHexChar && decide (h.length ≤ 4)

/-- Whether the `i`-th colon-separated part is empty (out of range counts as
nonempty, matching in-range use only). -/
def partsEmptyAt (parts : List (List Char)) (i : Nat) : Bool :=
  (parts.getD i ['x']).isEmpty

/-- Indices of empty parts strictly inside the list, the candidates for the
one `::` compression in `ipaddress._BaseV6._ip_int_from_string`. -/
def middleEmptyIdxs (parts : List (List Char)) : List Nat :=
  (List.range parts.length).filter
    (fun i => decide (1 ≤ i) && decide (i + 1 < parts.length) && partsEmptyAt parts i)

/-- The part-count logic of `ipaddress._BaseV6._ip_int_from_string` after the
embedded-IPv4 rewrite: more than one inner empty part is invalid; with one
(`::`), a leading or trailing lone colon is invalid and at least one hextet
must be skipped; without one, exactly 8 nonempty hextets are required. The
hextets outside the compression must each be valid. -/
def checkParts (parts : List (List Char)) : Bool :=
  let n := parts.length
  match middleEmptyIdxs parts with
  | [] =>
    decide (n = 8) && !(partsEmptyAt parts 0) && !(partsEmptyAt parts (n - 1))
      && parts.all hextetOk
  | [i] =>
    let hi1 := if partsEmptyAt parts 0 then i - 1 else i
    let lo1 := if partsEmptyAt parts (n - 1) then n - i - 2 else n - i - 1
    if partsEmptyAt parts 0 && decide (hi1 ≠ 0) then false
    else if partsEmptyAt parts (n - 1) && decide (lo1 ≠ 0) then false
    else if 7 < hi1 + lo1 then false
    else (parts.take hi1).all hextetOk && (parts.drop (n - lo1)).all hextetOk
  | _ => false

/-- Model of `ipaddress._BaseV6._ip_int_from_string` validity: nonempty, at
least 3 colon-separated parts, an optional embedded IPv4 in the last part
(which rewrites it into two hextets — modelled by two placeholder hextets,
since only counts and per-hextet validity matter), at most 9 parts, then the
compression/count check. -/
def isIPv6Addr (l : List Char) : Bool :=
  if l.isEmpty then false
  else
    let parts1 := splitChar ':' l
    if parts1.length < 3 then false
    else
      match parts1.getLast? with
      | none => false
      | some last =>
        if last.contains '.' then
          if isIPv4 last then
            let parts := parts1.dropLast ++ [['0'], ['0']]
            if 9 < parts.length then false else checkParts parts
          else false
        else
          if 9 < parts1.length then false else checkParts parts1

/-- Model of `ipaddress.IPv6Address` on host text: no `/`, an optional
`%scope` suffix (scope nonempty, no further `%`), and a valid address part. -/
def isIPv6 (l : List Char) : Bool :=
  if l.contains '/' then false
  else
    let addr := l.takeWhile (fun c => c ≠ '%')
    match l.dropWhile (fun c => c ≠ '%') with
    | [] => isIPv6Addr addr
    | _ :: scope => !scope.isEmpty && !scope.contains '%' && isIPv6Addr addr

/-- The IPvFuture arm of `urllib.parse._check_bracketed_host`: the regex
`v[hex]+\..+` applied to the part after the leading `v` (since `.` is not a
hex digit, the hex run before the dot is exactly the maximal one). -/
def ipvFutureOk (rest : List Char) : Bool :=
  let hs := rest.takeWhile isHexChar
  match rest.dropWhile isHexChar with
  | '.' :: tail => !hs.isEmpty && !tail.isEmpty
  | _ => false

/-- Model of `urllib.parse._check_bracketed_host` (CPython 3.11+): a host in
brackets must be an IPvFuture form when it starts with `v`, otherwise it must
parse as an IPv6 address (an IPv4 address, which `ip_address` would try
first, is rejected in brackets — so acceptance is exactly IPv6 validity). -/
def check_bracketed_host (host : List Char) : Bool :=
  match host with
  | 'v' :: rest => ipvFutureOk rest
  | _ => isIPv6 host

/-- The netloc-handling of `urlsplit` after `//`: take up to the first `/`,
`?` or `#`, raise (`none`) on a mismatched bracket (`Invalid IPv6 URL`), and
on a balanced-bracket authority validate the first bracketed segment with
`_check_bracketed_host`. -/
def netlocOfRest (rest : List Char) : Option String :=
  let netloc := rest.takeWhile netChar
  if netloc.contains '[' && !netloc.contains ']' then none
  else if netloc.contains ']' && !netloc.contains '[' then none
  else if netloc.contains '[' && netloc.contains ']' then
    let bracketed := ((netloc.dropWhile (fun c => c ≠ '[')).drop 1).takeWhile (fun c => c ≠ ']')
    if check_bracketed_host bracketed then some ⟨netloc⟩ else none
  else some ⟨netloc⟩

/-- Model of `urlparse(url).netloc` for the URLs reaching it in
`validate_url` (they begin with `http://` or `https://` by then): remove
tab/CR/LF, skip the scheme and `//`, then extract and check the netloc;
`none` models the `ValueError` that `urlsplit` raises on bracketed
authorities (mismatched brackets on every CPython, invalid bracketed hosts on
CPython 3.11+, the version this repository targets). For inputs without the
scheme prefix this model returns the empty authority. -/
def urlparse_netloc (url : String) : Option String :=
  let u := stripTabsNewlines url
  if strBeginsWith u "https://" then netlocOfRest (u.data.drop 8)
  else if strBeginsWith u "http://" then netlocOfRest (u.data.drop 7)
  else some ""

/-- Model of `validate_url` from app/utils.py: empty check, scheme-prefix
check, then `urlparse` inside the `try` — a raised `ValueError` is caught by
the `except` arm and reported as `Invalid URL format` — followed by the
netloc presence and minimal-length checks. -/
def validate_url (url : String) : Bool × String :=
  if url = "" then
    (false, "URL cannot be empty")
  else if !(strBeginsWith url "http://" || strBeginsWith url "https://") then
    (false, "URL must start with http:// or https://")
  else
    match urlparse_netloc url with
    | none => (false, "Invalid URL format")
    | some netloc =>
      if netloc = "" then
        (false, "Invalid URL format")
      else if netloc.length < 3 then
        (false, "Invalid domain name")
      else
        (true, "")

/-- Python `string.ascii_letters + string.digits`: the 62-symbol alphabet. -/
def alphanumAlphabet : List Char :=
  "abcdefghijklmnopqrstuvwxyzABCDEFGHIJKLMNOPQRSTUVWXYZ0123456789".data

/-- Model of `generate_short_code(length)`: `length` independent draws of
`random.choice(characters)`; the random stream is `choice`, reduced modulo
the alphabet size so every draw is a uniform pick from the alphabet. -/
def generate_short_code (choice : Nat → Nat) (len : Nat) : String :=
  ⟨(List.range len).map (fun i => alphanumAlphabet[choice i % alphanumAlphabet.length]!)⟩

/-- The loop body of `generate_unique_short_code`: `rem` attempts left, the
next attempt index is `attempt` (attempt `i` uses random draws `choices i`). -/
def genUniqueFrom (s : URLStore) (choices : Nat → Nat → Nat) (len : Nat) :
    Nat → Nat → Option String
  | _, 0 => none
  | attempt, rem + 1 =>
    let short_code := generate_short_code (choices attempt) len
    if s.url_exists short_code then
      genUniqueFrom s choices len (attempt + 1) rem
    else
      some short_code

/-- Model of `generate_unique_short_code(store, length, max_attempts)`: return the
first non-colliding candidate, `none` models the `RuntimeError` raised when
all `max_attempts` candidates collide. -/
def generate_unique_short_code (s : URLStore) (choices : Nat → Nat → Nat)
    (len maxAttempts : Nat) : Option String :=
  genUniqueFrom s choices len 0 maxAttempts

/-- Strip of trailing slashes: the `base_url.rstrip` call on the slash character
in `format_short_url`. -/
def rstripSlash (s : String) : String :=
  ⟨(s.data.reverse.dropWhile (fun c => c = '/')).reverse⟩

/-- Model of `format_short_url(short_code, base_url)`. -/
def format_short_url (short_code base_url : String) : String :=
  rstripSlash base_url ++ "/" ++ short_code

/-- The error outcomes of the `/api/shorten` handler. -/
inductive ShortenError where
  | invalidUrl (msg : String)
  | codeGenerationFailed
  | duplicate (code : String)
deriving DecidableEq, Repr

/-- The `/api/shorten` handler `shorten_url` (its URL-processing core, after
the JSON envelope checks): sanitize, validate, generate a unique code with the
source defaults (length 6, 10 attempts), create the mapping, format the short
URL with the default base `http://localhost:5000`. -/
def shorten (s : URLStore) (raw : String) (choices : Nat → Nat → Nat) (now : String) :
    Except ShortenError ((String × String) × URLStore) :=
  match validate_url (sanitize_url raw) with
  | (false, msg) => Except.error (ShortenError.invalidUrl msg)
  | (true, _) =>
    match generate_unique_short_code s choices 6 10 with
    | none => Except.error ShortenError.codeGenerationFailed
    | some short_code =>
      match s.create_url_mapping short_code (sanitize_url raw) now with
      | (Except.error _, _) => Except.error (ShortenError.duplicate short_code)
      | (Except.ok _, s2) =>
        Except.ok ((short_code, format_short_url short_code "http://localhost:5000"), s2)

/-- The `/<short_code>` handler `redirect_to_url`: look up, `none` when
absent (404), otherwise increment the click counter and redirect to the
record's original URL. -/
def resolve (s : URLStore) (code : String) : Option String × URLStore :=
  match s.get_url_mapping code with
  | none => (none, s)
  | some url_data => (some url_data.original_url, (s.increment_clicks code).2)

/-- Read a heap cell by address (list index). -/
def heapRead : List UrlRecord → Nat → Option UrlRecord
  | [], _ => none
  | r :: _, 0 => some r
  | _ :: t, n + 1 => heapRead t n

/-- Overwrite a heap cell by address; out-of-range writes are dropped. -/
def heapWrite : List UrlRecord → Nat → UrlRecord → List UrlRecord
  | [], _, _ => []
  | _ :: t, 0, r => r :: t
  | h :: t, n + 1, r => h :: heapWrite t n r

/-- Reference-semantics model of `URLStore`: Python dict values are objects on
a heap, and `self._urls` maps each short code to the address of its record
dict. This exposes which operations hand out the stored object itself and
which hand out a copy. -/
structure RefURLStore where
  heap : List UrlRecord
  urls : List (String × Nat)
deriving DecidableEq, Repr

/-- Addresses stored in the mapping point at live heap cells. Every state
reachable from the empty store satisfies this. -/
def RefURLStore.wellFormed (s : RefURLStore) : Prop :=
  ∀ p ∈ s.urls, p.2 < s.heap.length

/-- Reference-semantics `create_url_mapping`: allocate the record dict (cell
`heap.length`, the object stored in `_urls`) and its `url_data.copy()` (cell
`heap.length + 1`, the object handed back to the caller). -/
def RefURLStore.create_url_mapping (s : RefURLStore) (code url now : String) :
    Except StoreError Nat × RefURLStore :=
  if (lookupKey s.urls code).isSome then
    (Except.error (StoreError.duplicateCode code), s)
  else
    let url_data : UrlRecord := ⟨url, code, 0, now⟩
    (Except.ok (s.heap.length + 1),
      ⟨s.heap ++ [url_data, url_data], s.urls ++ [(code, s.heap.length)]⟩)

/-- Reference-semantics `get_url_mapping`: `self._urls.get(short_code)`
returns the stored dict object itself — the address, not a copy. -/
def RefURLStore.get_url_mapping (s : RefURLStore) (code : String) : Option Nat :=
  lookupKey s.urls code

/-- A caller mutating a record dict it holds a reference to (for example
`rec['clicks'] = n`): overwrite the `clicks` field of the cell at `a`. -/
def RefURLStore.writeClicks (s : RefURLStore) (a n : Nat) : RefURLStore :=
  match heapRead s.heap a with
  | none => s
  | some r => ⟨heapWrite s.heap a { r with clicks := n }, s.urls⟩

/-- The record the store itself holds for a code: follow the stored address
into the heap. -/
def RefURLStore.recordAt (s : RefURLStore) (code : String) : Option UrlRecord :=
  (lookupKey s.urls code).bind (heapRead s.heap)

/-- Reference-semantics `increment_clicks`: in-place update of the stored
record dict. -/
def RefURLStore.increment_clicks (s : RefURLStore) (code : String) :
    Bool × RefURLStore :=
  match lookupKey s.urls code with
  | none => (false, s)
  | some a =>
    match heapRead s.heap a with
    | none => (false, s)
    | some r => (true, ⟨heapWrite s.heap a { r with clicks := r.clicks + 1 }, s.urls⟩)

/-- One store API call, for stating invariants over arbitrary operation
sequences. The payload of `create` carries the code, URL and timestamp. -/
inductive StoreOp where
  | create (code url now : String)
  | get (code : String)
  | increment (code : String)
  | checkExists (code : String)
  | stats (code : String)
deriving DecidableEq, Repr

/-- The state transition of one store API call. `get`, `url_exists` and
`get_stats` only read under the lock, so their transition is the identity. -/
def StoreOp.apply : StoreOp → URLStore → URLStore
  | .create code url now, s => (s.create_url_mapping code url now).2
  | .get _, s => s
  | .increment code, s => (s.increment_clicks code).2
  | .checkExists _, s => s
  | .stats _, s => s

/-- Run a sequence of store API calls left to right. -/
def applyOps (ops : List StoreOp) (s : URLStore) : URLStore :=
  ops.foldl (fun t op => op.apply t) s

/-- Run `n` `increment_clicks` calls on one code, one after the other — the
serialization of `n` concurrent callers, in any order. -/
def iterIncrement (code : String) : Nat → URLStore → URLStore
  | 0, s => s
  | n + 1, s => iterIncrement code n (s.increment_clicks code).2

/-! ### Association-list lemmas -/

theorem lookupKey_append {β : Type} (l : List (String × β)) (k : String) (v : β)
    (c : String) :
    lookupKey (l ++ [(k, v)]) c =
      match lookupKey l c with
      | some x => some x
      | none => if k = c then some v else none := by
  induction l with
  | nil => simp [lookupKey]
  | cons p rest ih =>
    obtain ⟨k0, v0⟩ := p
    by_cases h : k0 = c <;> simp [lookupKey, h, ih]

theorem lookupKey_append_self {β : Type} (l : List (String × β)) (k : String) (v : β)
    (h : lookupKey l k = none) :
    lookupKey (l ++ [(k, v)]) k = some v := by
  rw [lookupKey_append, h]; simp

theorem lookupKey_append_of_some {β : Type} (l : List (String × β)) (k : String)
    (v : β) (c : String) (x : β) (h : lookupKey l c = some x) :
    lookupKey (l ++ [(k, v)]) c = some x := by
  rw [lookupKey_append, h]

theorem lookupKey_append_ne {β : Type} (l : List (String × β)) (k : String) (v : β)
    (c : String) (h : k ≠ c) :
    lookupKey (l ++ [(k, v)]) c = lookupKey l c := by
  rw [lookupKey_append]
  cases hl : lookupKey l c <;> simp [h]

theorem lookupKey_mem {β : Type} (l : List (String × β)) (c : String) (v : β)
    (h : lookupKey l c = some v) : (c, v) ∈ l := by
  induction l with
  | nil => simp [lookupKey] at h
  | cons p rest ih =>
    obtain ⟨k0, v0⟩ := p
    by_cases hk : k0 = c
    · subst hk
      simp [lookupKey] at h
      simp [h]
    · simp [lookupKey, hk] at h
      exact List.mem_cons_of_mem _ (ih h)

theorem lookupKey_cons {β : Type} (k : String) (v : β) (rest : List (String × β))
    (c : String) :
    lookupKey ((k, v) :: rest) c = if k = c then some v else lookupKey rest c := rfl

theorem bumpClicks_cons (k0 : String) (r0 : UrlRecord) (rest : List (String × UrlRecord))
    (code : String) :
    bumpClicks ((k0, r0) :: rest) code
      = (if k0 = code then (k0, { r0 with clicks := r0.clicks + 1 }) else (k0, r0))
          :: bumpClicks rest code := by
  unfold bumpClicks
  rw [List.map_cons]

theorem lookupKey_bumpClicks_self (l : List (String × UrlRecord)) (code : String) :
    lookupKey (bumpClicks l code) code
      = (lookupKey l code).map (fun r => { r with clicks := r.clicks + 1 }) := by
  induction l with
  | nil => simp [lookupKey, bumpClicks]
  | cons p rest ih =>
    obtain ⟨k0, r0⟩ := p
    rw [bumpClicks_cons]
    by_cases h : k0 = code
    · rw [if_pos h, lookupKey_cons, if_pos h, lookupKey_cons, if_pos h]
      simp
    · rw [if_neg h, lookupKey_cons, if_neg h, lookupKey_cons, if_neg h]
      exact ih

theorem lookupKey_bumpClicks_ne (l : List (String × UrlRecord)) (code c : String)
    (h : c ≠ code) :
    lookupKey (bumpClicks l code) c = lookupKey l c := by
  induction l with
  | nil => simp [lookupKey, bumpClicks]
  | cons p rest ih =>
    obtain ⟨k0, r0⟩ := p
    rw [bumpClicks_cons]
    by_cases hk : k0 = code
    · have hkc : k0 ≠ c := by rw [hk]; exact fun he => h he.symm
      rw [if_pos hk, lookupKey_cons, lookupKey_cons, if_neg hkc, if_neg hkc]
      exact ih
    · rw [if_neg hk, lookupKey_cons, lookupKey_cons]
      by_cases hc : k0 = c
      · rw [if_pos hc, if_pos hc]
      · rw [if_neg hc, if_neg hc]
        exact ih

/-! ### Derived facts about the pure store operations -/

theorem get_increment_self (s : URLStore) (code : String) :
    ((s.increment_clicks code).2).get_url_mapping code
      = (s.get_url_mapping code).map (fun r => { r with clicks := r.clicks + 1 }) := by
  unfold URLStore.increment_clicks URLStore.url_exists URLStore.get_url_mapping
  cases hl : lookupKey s.urls code with
  | none => simp [hl]
  | some r => simp [hl, lookupKey_bumpClicks_self]

theorem get_increment_ne (s : URLStore) (code c : String) (h : c ≠ code) :
    ((s.increment_clicks code).2).get_url_mapping c = s.get_url_mapping c := by
  unfold URLStore.increment_clicks URLStore.url_exists URLStore.get_url_mapping
  cases hl : lookupKey s.urls code with
  | none => simp [hl]
  | some r => simp [hl, lookupKey_bumpClicks_ne _ _ _ h]

theorem increment_flag (s : URLStore) (code : String) :
    (s.increment_clicks code).1 = (s.get_url_mapping code).isSome := by
  unfold URLStore.increment_clicks URLStore.url_exists URLStore.get_url_mapping
  cases hl : lookupKey s.urls code <;> simp [hl]

theorem increment_absent (s : URLStore) (code : String)
    (h : s.get_url_mapping code = none) :
    s.increment_clicks code = (false, s) := by
  unfold URLStore.increment_clicks URLStore.url_exists
  unfold URLStore.get_url_mapping at h
  simp [h]

theorem create_of_absent (s : URLStore) (code url now : String)
    (h : s.get_url_mapping code = none) :
    s.create_url_mapping code url now
      = (Except.ok ⟨url, code, 0, now⟩, ⟨s.urls ++ [(code, ⟨url, code, 0, now⟩)]⟩) := by
  unfold URLStore.create_url_mapping URLStore.url_exists
  unfold URLStore.get_url_mapping at h
  simp [h]

theorem create_of_present (s : URLStore) (code url now : String)
    (h : (s.get_url_mapping code).isSome = true) :
    s.create_url_mapping code url now
      = (Except.error (StoreError.duplicateCode code), s) := by
  unfold URLStore.create_url_mapping URLStore.url_exists
  unfold URLStore.get_url_mapping at h
  simp [h]

theorem get_after_create_self (s : URLStore) (code url now : String)
    (h : s.get_url_mapping code = none) :
    ((s.create_url_mapping code url now).2).get_url_mapping code
      = some ⟨url, code, 0, now⟩ := by
  rw [create_of_absent s code url now h]
  unfold URLStore.get_url_mapping at h ⊢
  exact lookupKey_append_self _ _ _ h

/-! ### Heap lemmas for the reference-semantics model -/

theorem heapRead_append_left (l l2 : List UrlRecord) (i : Nat) (h : i < l.length) :
    heapRead (l ++ l2) i = heapRead l i := by
  induction l generalizing i with
  | nil => simp at h
  | cons r t ih =>
    cases i with
    | zero => rfl
    | succ j =>
      have : j < t.length := by simpa using h
      exact ih j this

theorem heapRead_append_right (l l2 : List UrlRecord) (k : Nat) :
    heapRead (l ++ l2) (l.length + k) = heapRead l2 k := by
  induction l with
  | nil => simp [Nat.zero_add]
  | cons r t ih =>
    have h1 : (r :: t).length + k = (t.length + k) + 1 := by
      simp [List.length_cons]; omega
    rw [h1]
    show heapRead (t ++ l2) (t.length + k) = heapRead l2 k
    exact ih

theorem heapRead_write_ne (l : List UrlRecord) (i j : Nat) (r : UrlRecord)
    (h : i ≠ j) :
    heapRead (heapWrite l i r) j = heapRead l j := by
  induction l generalizing i j with
  | nil => cases i <;> rfl
  | cons hd t ih =>
    cases i with
    | zero =>
      cases j with
      | zero => exact absurd rfl h
      | succ j2 => rfl
    | succ i2 =>
      cases j with
      | zero => rfl
      | succ j2 =>
        have : i2 ≠ j2 := fun he => h (by rw [he])
        exact ih i2 j2 this

theorem heapRead_write_self (l : List UrlRecord) (i : Nat) (r : UrlRecord)
    (h : i < l.length) :
    heapRead (heapWrite l i r) i = some r := by
  induction l generalizing i with
  | nil => simp at h
  | cons hd t ih =>
    cases i with
    | zero => rfl
    | succ i2 =>
      have : i2 < t.length := by simpa using h
      exact ih i2 this

theorem heapRead_lt (l : List UrlRecord) (i : Nat) (h : i < l.length) :
    ∃ r, heapRead l i = some r := by
  induction l generalizing i with
  | nil => simp at h
  | cons hd t ih =>
    cases i with
    | zero => exact ⟨hd, rfl⟩
    | succ i2 =>
      have : i2 < t.length := by simpa using h
      exact ih i2 this

/-! ### Lemmas about the code generator -/

theorem alphanumAlphabet_length : alphanumAlphabet.length = 62 := by decide

theorem generate_short_code_length (choice : Nat → Nat) (len : Nat) :
    (generate_short_code choice len).length = len := by
  show ((List.range len).map _).length = len
  rw [List.length_map, List.length_range]

theorem generate_short_code_chars (choice : Nat → Nat) (len : Nat) :
    ∀ ch ∈ (generate_short_code choice len).data, ch ∈ alphanumAlphabet := by
  intro ch hch
  have hdata : (generate_short_code choice len).data
      = (List.range len).map (fun i => alphanumAlphabet[choice i % alphanumAlphabet.length]!) := rfl
  rw [hdata, List.mem_map] at hch
  obtain ⟨i, _, hi⟩ := hch
  have hpos : 0 < alphanumAlphabet.length := by rw [alphanumAlphabet_length]; omega
  have hlt : choice i % alphanumAlphabet.length < alphanumAlphabet.length :=
    Nat.mod_lt _ hpos
  rw [← hi, getElem!_pos alphanumAlphabet _ hlt]
  exact List.getElem_mem hlt

theorem genUniqueFrom_some_iff (s : URLStore) (choices : Nat → Nat → Nat) (len : Nat) :
    ∀ (n attempt : Nat) (c : String),
      genUniqueFrom s choices len attempt n = some c ↔
        ∃ j, j < n ∧ c = generate_short_code (choices (attempt + j)) len
          ∧ s.url_exists (generate_short_code (choices (attempt + j)) len) = false
          ∧ ∀ k, k < j →
              s.url_exists (generate_short_code (choices (attempt + k)) len) = true := by
  intro n
  induction n with
  | zero =>
    intro attempt c
    simp [genUniqueFrom]
  | succ m ih =>
    intro attempt c
    unfold genUniqueFrom
    cases hex : s.url_exists (generate_short_code (choices attempt) len) with
    | true =>
      rw [if_pos hex]
      constructor
      · intro h
        obtain ⟨j, hj, hc, hne, hall⟩ := (ih (attempt + 1) c).mp h
        refine ⟨j + 1, by omega, ?_, ?_, ?_⟩
        · have e : attempt + (j + 1) = attempt + 1 + j := by omega
          rw [e]; exact hc
        · have e : attempt + (j + 1) = attempt + 1 + j := by omega
          rw [e]; exact hne
        · intro k hk
          cases k with
          | zero => simpa using hex
          | succ k2 =>
            have e : attempt + (k2 + 1) = attempt + 1 + k2 := by omega
            rw [e]; exact hall k2 (by omega)
      · intro h
        obtain ⟨j, hj, hc, hne, hall⟩ := h
        cases j with
        | zero =>
          rw [Nat.add_zero] at hne
          rw [hex] at hne
          exact absurd hne (by simp)
        | succ j2 =>
          apply (ih (attempt + 1) c).mpr
          refine ⟨j2, by omega, ?_, ?_, ?_⟩
          · have e : attempt + 1 + j2 = attempt + (j2 + 1) := by omega
            rw [e]; exact hc
          · have e : attempt + 1 + j2 = attempt + (j2 + 1) := by omega
            rw [e]; exact hne
          · intro k hk
            have e : attempt + 1 + k = attempt + (k + 1) := by omega
            rw [e]; exact hall (k + 1) (by omega)
    | false =>
      rw [if_neg (by simp [hex])]
      constructor
      · intro h
        refine ⟨0, by omega, ?_, ?_, ?_⟩
        · rw [Nat.add_zero]
          exact (Option.some.injEq _ _).mp h.symm
        · rw [Nat.add_zero]; exact hex
        · intro k hk; omega
      · intro h
        obtain ⟨j, hj, hc, hne, hall⟩ := h
        cases j with
        | zero =>
          rw [Nat.add_zero] at hc
          rw [hc]
        | succ j2 =>
          have := hall 0 (by omega)
          rw [Nat.add_zero, hex] at this
          exact absurd this (by simp)

theorem genUniqueFrom_none_iff (s : URLStore) (choices : Nat → Nat → Nat) (len : Nat) :
    ∀ (n attempt : Nat),
      genUniqueFrom s choices len attempt n = none ↔
        ∀ j, j < n →
          s.url_exists (generate_short_code (choices (attempt + j)) len) = true := by
  intro n
  induction n with
  | zero =>
    intro attempt
    simp [genUniqueFrom]
  | succ m ih =>
    intro attempt
    unfold genUniqueFrom
    cases hex : s.url_exists (generate_short_code (choices attempt) len) with
    | true =>
      rw [if_pos hex]
      constructor
      · intro h j hj
        cases j with
        | zero => simpa using hex
        | succ j2 =>
          have e : attempt + (j2 + 1) = attempt + 1 + j2 := by omega
          rw [e]; exact (ih (attempt + 1)).mp h j2 (by omega)
      · intro h
        apply (ih (attempt + 1)).mpr
        intro j hj
        have e : attempt + 1 + j = attempt + (j + 1) := by omega
        rw [e]; exact h (j + 1) (by omega)
    | false =>
      rw [if_neg (by simp [hex])]
      constructor
      · intro h; exact absurd h (by simp)
      · intro h
        have := h 0 (by omega)
        rw [Nat.add_zero, hex] at this
        exact absurd this (by simp)

theorem genUniqueFrom_congr (s : URLStore) (choices choices2 : Nat → Nat → Nat)
    (len : Nat) :
    ∀ (n attempt : Nat),
      (∀ i, attempt ≤ i → i < attempt + n → choices i = choices2 i) →
      genUniqueFrom s choices len attempt n
        = genUniqueFrom s choices2 len attempt n := by
  intro n
  induction n with
  | zero => intro attempt h; rfl
  | succ m ih =>
    intro attempt h
    unfold genUniqueFrom
    have h0 : choices attempt = choices2 attempt := h attempt (by omega) (by omega)
    rw [h0]
    cases hex : s.url_exists (generate_short_code (choices2 attempt) len) with
    | true =>
      rw [if_pos hex, if_pos hex]
      exact ih (attempt + 1) (fun i h1 h2 => h i (by omega) (by omega))
    | false =>
      rw [if_neg (by simp [hex]), if_neg (by simp [hex])]

theorem genUniqueFrom_some_shape (s : URLStore) (choices : Nat → Nat → Nat) (len : Nat) :
    ∀ (n attempt c : _), genUniqueFrom s choices len attempt n = some c →
      (∃ i, c = generate_short_code (choices i) len) ∧ s.url_exists c = false := by
  intro n
  induction n with
  | zero => intro attempt c h; exact absurd h (by simp [genUniqueFrom])
  | succ m ih =>
    intro attempt c h
    unfold genUniqueFrom at h
    cases hex : s.url_exists (generate_short_code (choices attempt) len) with
    | true =>
      rw [if_pos hex] at h
      exact ih (attempt + 1) c h
    | false =>
      rw [if_neg (by simp [hex])] at h
      have hc : c = generate_short_code (choices attempt) len :=
        ((Option.some.injEq _ _).mp h).symm
      refine ⟨⟨attempt, hc⟩, ?_⟩
      rw [hc]; exact hex

/-! ### Lemmas about the validator -/

theorem pyStripList_eq_nil_all_space (l : List Char) (h : pyStripList l = []) :
    ∀ x ∈ l, pyIsSpace x = true := by
  unfold pyStripList at h
  rw [List.reverse_eq_nil_iff, List.dropWhile_eq_nil_iff] at h
  have hdrop : ∀ x ∈ l.dropWhile pyIsSpace, pyIsSpace x = true := by
    intro x hx
    exact h x (List.mem_reverse.mpr hx)
  intro x hx
  rw [← List.takeWhile_append_dropWhile (p := pyIsSpace) (l := l)] at hx
  rcases List.mem_append.mp hx with htk | hdr
  · exact List.mem_takeWhile_imp htk
  · exact hdrop x hdr

theorem beginsWith_h_cons_space (c : Char) (cs rest : List Char)
    (hc : pyIsSpace c = true) :
    beginsWith ('h' :: rest) (c :: cs) = false := by
  have hd : decide ('h' = c) = false := by
    cases hdec : decide ('h' = c) with
    | false => rfl
    | true =>
      have he : 'h' = c := of_decide_eq_true hdec
      rw [← he] at hc
      exact absurd hc (by decide)
  unfold beginsWith
  rw [hd, Bool.false_and]

theorem sanitize_empty_no_scheme (u : String) (h : sanitize_url u = "") :
    strBeginsWith u "http://" = false ∧ strBeginsWith u "https://" = false := by
  have hdata : pyStripList u.data = [] := by
    have := congrArg String.data h
    simpa [sanitize_url] using this
  have hall := pyStripList_eq_nil_all_space u.data hdata
  have hgen : ∀ rest : List Char, beginsWith ('h' :: rest) u.data = false := by
    intro rest
    cases hu : u.data with
    | nil => rfl
    | cons c cs =>
      have hc : pyIsSpace c = true := hall c (by rw [hu]; simp)
      exact beginsWith_h_cons_space c cs rest hc
  constructor
  · show beginsWith "http://".data u.data = false
    have : "http://".data = 'h' :: "ttp://".data := rfl
    rw [this]; exact hgen _
  · show beginsWith "https://".data u.data = false
    have : "https://".data = 'h' :: "ttps://".data := rfl
    rw [this]; exact hgen _

/-! ### Claim theorems -/

/-- Claim C5: `validate_url` returns false together with a nonempty reason
exactly when the input is empty after trimming, or does not begin exactly with
the scheme prefix `http://` or `https://`, or the parsed authority component
is absent (no netloc is parsed — including when `urlparse` raises `ValueError`
on a bracketed authority — or it is empty) or shorter than 3 characters; every
other input yields true with an empty reason. -/
theorem validate_url_spec (u : String) :
    ((validate_url u).1 = false ↔
      (sanitize_url u = ""
        ∨ (strBeginsWith u "http://" = false ∧ strBeginsWith u "https://" = false)
        ∨ ∀ netloc, urlparse_netloc u = some netloc → netloc.length < 3))
    ∧ ((validate_url u).1 = true → (validate_url u).2 = "")
    ∧ ((validate_url u).1 = false → (validate_url u).2 ≠ "") := by
  by_cases h0 : u = ""
  · subst h0
    refine ⟨⟨fun _ => Or.inl rfl, fun _ => rfl⟩,
      fun hc => absurd hc (by decide), fun _ => by decide⟩
  · cases hsch : (strBeginsWith u "http://" || strBeginsWith u "https://") with
    | false =>
      have hsp := Bool.or_eq_false_iff.mp hsch
      have hval : validate_url u = (false, "URL must start with http:// or https://") := by
        unfold validate_url
        rw [if_neg h0, if_pos (by rw [hsch]; rfl)]
      rw [hval]
      refine ⟨⟨fun _ => Or.inr (Or.inl ⟨hsp.1, hsp.2⟩), fun _ => rfl⟩,
        fun hc => absurd hc (by decide), fun _ => by decide⟩
    | true =>
      have hs1 : sanitize_url u ≠ "" := by
        intro he
        obtain ⟨f1, f2⟩ := sanitize_empty_no_scheme u he
        rw [f1, f2] at hsch
        exact absurd hsch (by decide)
      have hnotsch : ¬(strBeginsWith u "http://" = false
          ∧ strBeginsWith u "https://" = false) := by
        intro hdisj
        rw [hdisj.1, hdisj.2] at hsch
        exact absurd hsch (by decide)
      cases hn : urlparse_netloc u with
      | none =>
        have hval2 : validate_url u = (false, "Invalid URL format") := by
          unfold validate_url
          rw [if_neg h0, if_neg (by rw [hsch]; simp), hn]
        rw [hval2]
        refine ⟨⟨fun _ => Or.inr (Or.inr ?_), fun _ => rfl⟩,
          fun hc => absurd hc (by decide), fun _ => by decide⟩
        intro netloc hsome
        exact absurd hsome (by simp)
      | some netloc =>
        have hval2 : validate_url u =
            (if netloc = "" then (false, "Invalid URL format")
             else if netloc.length < 3 then (false, "Invalid domain name")
             else (true, "")) := by
          unfold validate_url
          rw [if_neg h0, if_neg (by rw [hsch]; simp), hn]
        by_cases hn0 : netloc = ""
        · rw [hval2, if_pos hn0]
          refine ⟨⟨fun _ => Or.inr (Or.inr ?_), fun _ => rfl⟩,
            fun hc => absurd hc (by decide), fun _ => by decide⟩
          intro n2 hsome
          injection hsome with he
          rw [← he, hn0]
          decide
        · by_cases hn3 : netloc.length < 3
          · rw [hval2, if_neg hn0, if_pos hn3]
            refine ⟨⟨fun _ => Or.inr (Or.inr ?_), fun _ => rfl⟩,
              fun hc => absurd hc (by decide), fun _ => by decide⟩
            intro n2 hsome
            injection hsome with he
            rw [← he]
            exact hn3
          · rw [hval2, if_neg hn0, if_neg hn3]
            refine ⟨⟨fun hc => absurd hc (by decide), ?_⟩,
              fun _ => rfl, fun hc => absurd hc (by decide)⟩
            intro hdisj
            rcases hdisj with h1 | h2 | h3
            · exact absurd h1 hs1
            · exact absurd h2 hnotsch
            · exact absurd (h3 netloc rfl) hn3

/-- Sanity checks of the modelled `except` arm against CPython 3.11: a
mismatched bracket and an invalid bracketed host make `urlparse` raise, which
`validate_url` catches and rejects, while valid bracketed IPv6 and IPvFuture
hosts pass through. -/
theorem validate_url_bracket_paths :
    validate_url "http://[abc" = (false, "Invalid URL format")
    ∧ validate_url "http://[abc]" = (false, "Invalid URL format")
    ∧ validate_url "http://[1.2.3.4]" = (false, "Invalid URL format")
    ∧ validate_url "http://[::1]" = (true, "")
    ∧ validate_url "http://[v1.future]" = (true, "") := by decide

/-- Claim C5 witness: a concrete valid URL is accepted with an empty reason. -/
theorem validate_url_spec_witness :
    (validate_url "https://ok.example.com").2 = "" :=
  (validate_url_spec "https://ok.example.com").2.1 rfl

/-- Claim C10: the validator never trims before checking — every input that
begins with a whitespace character is rejected (the scheme-prefix check runs
on the raw string), even when its trimmed form would be accepted; an input
with only trailing whitespace after a valid URL can still be accepted. -/
theorem validate_url_no_trim :
    (∀ (c : Char) (cs : List Char), pyIsSpace c = true →
      (validate_url (String.mk (c :: cs))).1 = false)
    ∧ validate_url "https://trailing.example.com   " = (true, "")
    ∧ (validate_url " https://trailing.example.com").1 = false
    ∧ validate_url "https://trailing.example.com" = (true, "") := by
  refine ⟨?_, by decide, by decide, by decide⟩
  intro c cs hc
  have hne : String.mk (c :: cs) ≠ "" := by
    intro h
    have := congrArg String.data h
    simp at this
  have h1 : strBeginsWith (String.mk (c :: cs)) "http://" = false := by
    show beginsWith "http://".data (c :: cs) = false
    have e : "http://".data = 'h' :: "ttp://".data := rfl
    rw [e]
    exact beginsWith_h_cons_space c cs _ hc
  have h2 : strBeginsWith (String.mk (c :: cs)) "https://" = false := by
    show beginsWith "https://".data (c :: cs) = false
    have e : "https://".data = 'h' :: "ttps://".data := rfl
    rw [e]
    exact beginsWith_h_cons_space c cs _ hc
  unfold validate_url
  rw [if_neg hne, if_pos (by rw [h1, h2]; rfl)]

/-- Claim C10 witness: a concrete leading-space URL is rejected. -/
theorem validate_url_no_trim_witness :
    (validate_url (String.mk (' ' :: "http://abc".data))).1 = false :=
  validate_url_no_trim.1 ' ' "http://abc".data (by decide)

/-- Claim C2: `create_url_mapping` fails with DuplicateCode exactly when the
code already exists, leaves the store unchanged on failure; on success it
appends exactly one new record with zero clicks, the given URL and the
creation timestamp, returns that record, and leaves every other code's
mapping unchanged. -/
theorem create_url_mapping_spec (s : URLStore) (code url now : String) :
    (((s.create_url_mapping code url now).1
        = Except.error (StoreError.duplicateCode code))
      ↔ (s.get_url_mapping code).isSome = true)
    ∧ ((s.get_url_mapping code).isSome = true →
        (s.create_url_mapping code url now).2 = s)
    ∧ (∀ r, (s.create_url_mapping code url now).1 = Except.ok r →
        r = ⟨url, code, 0, now⟩
        ∧ (s.create_url_mapping code url now).2.urls = s.urls ++ [(code, r)]
        ∧ (s.create_url_mapping code url now).2.get_url_mapping code = some r
        ∧ ∀ c, c ≠ code →
            (s.create_url_mapping code url now).2.get_url_mapping c
              = s.get_url_mapping c) := by
  cases hex : (s.get_url_mapping code).isSome with
  | true =>
    rw [create_of_present s code url now hex]
    refine ⟨⟨fun _ => rfl, fun _ => rfl⟩, fun _ => rfl, ?_⟩
    intro r hr
    exact absurd hr (by simp)
  | false =>
    have hnone : s.get_url_mapping code = none := by
      cases hl : s.get_url_mapping code with
      | none => rfl
      | some x => rw [hl] at hex; simp at hex
    rw [create_of_absent s code url now hnone]
    refine ⟨⟨fun hc => absurd hc (by simp), fun hc => Bool.noConfusion hc⟩,
      fun hc => Bool.noConfusion hc, ?_⟩
    intro r hr
    have hr2 : Except.ok (⟨url, code, 0, now⟩ : UrlRecord) = Except.ok r := hr
    have hre : (⟨url, code, 0, now⟩ : UrlRecord) = r := by injection hr2
    subst hre
    refine ⟨rfl, rfl, ?_, ?_⟩
    · show lookupKey (s.urls ++ [(code, ⟨url, code, 0, now⟩)]) code = some _
      exact lookupKey_append_self _ _ _ hnone
    · intro c hc
      show lookupKey (s.urls ++ [(code, ⟨url, code, 0, now⟩)]) c = lookupKey s.urls c
      exact lookupKey_append_ne _ _ _ _ (fun he => hc he.symm)

/-- Claim C2 witness: on an empty store, creating a mapping stores the fresh
record under its code. -/
theorem create_url_mapping_spec_witness :
    ((URLStore.mk []).create_url_mapping "abc123" "https://w.example.com" "t0").2.get_url_mapping "abc123"
      = some ⟨"https://w.example.com", "abc123", 0, "t0"⟩ :=
  ((create_url_mapping_spec (URLStore.mk []) "abc123" "https://w.example.com" "t0").2.2
    ⟨"https://w.example.com", "abc123", 0, "t0"⟩ rfl).2.2.1

/-- Claim C7: `increment_clicks` bumps the stored record's clicks by exactly
one and returns true when the code exists, leaving every other code's mapping
unchanged and no other field modified; when the code is absent it returns
false and the store is unchanged. -/
theorem increment_clicks_spec (s : URLStore) (code : String) :
    (∀ r, s.get_url_mapping code = some r →
        (s.increment_clicks code).1 = true
        ∧ (s.increment_clicks code).2.get_url_mapping code
            = some { r with clicks := r.clicks + 1 }
        ∧ ∀ c, c ≠ code →
            (s.increment_clicks code).2.get_url_mapping c = s.get_url_mapping c)
    ∧ (s.get_url_mapping code = none → s.increment_clicks code = (false, s)) := by
  constructor
  · intro r hr
    refine ⟨?_, ?_, ?_⟩
    · rw [increment_flag, hr]; rfl
    · rw [get_increment_self, hr]; rfl
    · intro c hc
      exact get_increment_ne s code c hc
  · exact increment_absent s code

/-- Claim C7 witness: incrementing a concrete stored record moves its clicks
from 3 to 4. -/
theorem increment_clicks_spec_witness :
    ((URLStore.mk [("abc123", ⟨"https://w.example.com", "abc123", 3, "t0"⟩)]).increment_clicks "abc123").2.get_url_mapping "abc123"
      = some ⟨"https://w.example.com", "abc123", 4, "t0"⟩ :=
  ((increment_clicks_spec
      (URLStore.mk [("abc123", ⟨"https://w.example.com", "abc123", 3, "t0"⟩)]) "abc123").1
    ⟨"https://w.example.com", "abc123", 3, "t0"⟩ rfl).2.1

/-- One store call preserves the per-record invariants: the record stays
present, `original_url`, `created_at` and `short_code` are unchanged, and
`clicks` does not decrease. -/
theorem step_preserves (op : StoreOp) (s : URLStore) (c : String) (r : UrlRecord)
    (h : s.get_url_mapping c = some r) :
    ∃ r2, (op.apply s).get_url_mapping c = some r2
      ∧ r2.original_url = r.original_url
      ∧ r2.created_at = r.created_at
      ∧ r2.short_code = r.short_code
      ∧ r.clicks ≤ r2.clicks := by
  cases op with
  | create k u t =>
    simp only [StoreOp.apply]
    by_cases hex : (s.get_url_mapping k).isSome = true
    · rw [create_of_present s k u t hex]
      exact ⟨r, h, rfl, rfl, rfl, Nat.le_refl _⟩
    · have hnone : s.get_url_mapping k = none := by
        cases hl : s.get_url_mapping k with
        | none => rfl
        | some x => rw [hl] at hex; simp at hex
      rw [create_of_absent s k u t hnone]
      refine ⟨r, ?_, rfl, rfl, rfl, Nat.le_refl _⟩
      show lookupKey (s.urls ++ [(k, ⟨u, k, 0, t⟩)]) c = some r
      exact lookupKey_append_of_some _ _ _ _ _ h
  | increment k =>
    simp only [StoreOp.apply]
    by_cases hck : c = k
    · subst hck
      rw [get_increment_self, h]
      exact ⟨{ r with clicks := r.clicks + 1 }, rfl, rfl, rfl, rfl, Nat.le_succ _⟩
    · rw [get_increment_ne s k c hck]
      exact ⟨r, h, rfl, rfl, rfl, Nat.le_refl _⟩
  | get k => exact ⟨r, h, rfl, rfl, rfl, Nat.le_refl _⟩
  | checkExists k => exact ⟨r, h, rfl, rfl, rfl, Nat.le_refl _⟩
  | stats k => exact ⟨r, h, rfl, rfl, rfl, Nat.le_refl _⟩

/-- Claim C8: across any sequence of store operations, a record once created
is never deleted, its `original_url`, `created_at` and `short_code` never
change, its `clicks` never decreases; the read operations (`get_url_mapping`,
`url_exists`, `get_stats`) are identity transitions on the store, so repeated
`get_stats` calls never change `clicks`. -/
theorem store_invariants (ops : List StoreOp) (s : URLStore) (c : String)
    (r : UrlRecord) (h : s.get_url_mapping c = some r) :
    (∃ r2, (applyOps ops s).get_url_mapping c = some r2
      ∧ r2.original_url = r.original_url
      ∧ r2.created_at = r.created_at
      ∧ r2.short_code = r.short_code
      ∧ r.clicks ≤ r2.clicks)
    ∧ ∀ code, (StoreOp.get code).apply s = s
        ∧ (StoreOp.checkExists code).apply s = s
        ∧ (StoreOp.stats code).apply s = s := by
  constructor
  · induction ops generalizing s r with
    | nil => exact ⟨r, h, rfl, rfl, rfl, Nat.le_refl _⟩
    | cons op rest ih =>
      obtain ⟨r2, h2, e1, e2, e3, hle⟩ := step_preserves op s c r h
      obtain ⟨r3, h3, f1, f2, f3, hle2⟩ := ih (op.apply s) r2 h2
      exact ⟨r3, h3, by rw [f1, e1], by rw [f2, e2], by rw [f3, e3],
        Nat.le_trans hle hle2⟩
  · intro code
    exact ⟨rfl, rfl, rfl⟩

/-- Claim C8 witness: a concrete record survives an increment, an unrelated
create and a stats read with its immutable fields intact and clicks not
decreased. -/
theorem store_invariants_witness :
    (∃ r2, (applyOps
        [StoreOp.increment "abc123",
         StoreOp.create "zzzzzz" "https://o.example.com" "t1",
         StoreOp.stats "abc123"]
        (URLStore.mk [("abc123", ⟨"https://w.example.com", "abc123", 0, "t0"⟩)])).get_url_mapping "abc123"
          = some r2
      ∧ r2.original_url = "https://w.example.com"
      ∧ r2.created_at = "t0"
      ∧ r2.short_code = "abc123"
      ∧ 0 ≤ r2.clicks)
    ∧ ∀ code,
        (StoreOp.get code).apply
            (URLStore.mk [("abc123", ⟨"https://w.example.com", "abc123", 0, "t0"⟩)])
          = URLStore.mk [("abc123", ⟨"https://w.example.com", "abc123", 0, "t0"⟩)]
        ∧ (StoreOp.checkExists code).apply
            (URLStore.mk [("abc123", ⟨"https://w.example.com", "abc123", 0, "t0"⟩)])
          = URLStore.mk [("abc123", ⟨"https://w.example.com", "abc123", 0, "t0"⟩)]
        ∧ (StoreOp.stats code).apply
            (URLStore.mk [("abc123", ⟨"https://w.example.com", "abc123", 0, "t0"⟩)])
          = URLStore.mk [("abc123", ⟨"https://w.example.com", "abc123", 0, "t0"⟩)] :=
  store_invariants
    [StoreOp.increment "abc123",
     StoreOp.create "zzzzzz" "https://o.example.com" "t1",
     StoreOp.stats "abc123"]
    (URLStore.mk [("abc123", ⟨"https://w.example.com", "abc123", 0, "t0"⟩)])
    "abc123" ⟨"https://w.example.com", "abc123", 0, "t0"⟩ rfl

/-- Claim C4: the store serializes its operations (each runs under the one
lock), so a concurrent execution is an arbitrary interleaving of atomic
calls. In every interleaving, N `increment_clicks` calls on one existing code
add exactly N to its clicks (no lost update), and of two `create` calls with
the same code at most one succeeds — the one serialized second observes
DuplicateCode. -/
theorem store_linearized :
    (∀ (s : URLStore) (code : String) (r : UrlRecord) (N : Nat),
        s.get_url_mapping code = some r →
        (iterIncrement code N s).get_url_mapping code
          = some { r with clicks := r.clicks + N })
    ∧ (∀ (s : URLStore) (code u1 t1 u2 t2 : String) (r1 : UrlRecord),
        (s.create_url_mapping code u1 t1).1 = Except.ok r1 →
        ((s.create_url_mapping code u1 t1).2.create_url_mapping code u2 t2).1
          = Except.error (StoreError.duplicateCode code)) := by
  constructor
  · intro s code r N h
    induction N generalizing s r with
    | zero => exact h
    | succ n ih =>
      show (iterIncrement code n ((s.increment_clicks code).2)).get_url_mapping code = _
      have h2 : ((s.increment_clicks code).2).get_url_mapping code
          = some { r with clicks := r.clicks + 1 } := by
        rw [get_increment_self, h]; rfl
      rw [ih ((s.increment_clicks code).2) { r with clicks := r.clicks + 1 } h2]
      have e : r.clicks + 1 + n = r.clicks + (n + 1) := by omega
      rw [e]
  · intro s code u1 t1 u2 t2 r1 h1
    by_cases hex : (s.get_url_mapping code).isSome = true
    · rw [create_of_present s code u1 t1 hex] at h1
      exact absurd h1 (by simp)
    · have hnone : s.get_url_mapping code = none := by
        cases hl : s.get_url_mapping code with
        | none => rfl
        | some x => rw [hl] at hex; simp at hex
      have h2 := get_after_create_self s code u1 t1 hnone
      have hex2 : (((s.create_url_mapping code u1 t1).2).get_url_mapping code).isSome
          = true := by rw [h2]; rfl
      rw [create_of_present _ code u2 t2 hex2]

/-- Claim C4 witness: ten serialized increments on a fresh record end at
exactly ten clicks. -/
theorem store_linearized_witness :
    (iterIncrement "abc123" 10
        (URLStore.mk [("abc123", ⟨"https://w.example.com", "abc123", 0, "t0"⟩)])).get_url_mapping "abc123"
      = some ⟨"https://w.example.com", "abc123", 10, "t0"⟩ :=
  store_linearized.1
    (URLStore.mk [("abc123", ⟨"https://w.example.com", "abc123", 0, "t0"⟩)])
    "abc123" ⟨"https://w.example.com", "abc123", 0, "t0"⟩ 10 rfl

/-- Claim C6: `generate_unique_short_code` returns exactly the first generated
candidate that is not present in the store, raises (returns `none`, the
RuntimeError) precisely when all `maxAttempts` generated candidates are
already present, and never consumes random draws beyond the first
`maxAttempts` attempts. -/
theorem generate_unique_short_code_spec (s : URLStore) (choices : Nat → Nat → Nat)
    (len maxAttempts : Nat) :
    (∀ c, generate_unique_short_code s choices len maxAttempts = some c ↔
        ∃ j, j < maxAttempts ∧ c = generate_short_code (choices j) len
          ∧ s.url_exists (generate_short_code (choices j) len) = false
          ∧ ∀ k, k < j →
              s.url_exists (generate_short_code (choices k) len) = true)
    ∧ (generate_unique_short_code s choices len maxAttempts = none ↔
        ∀ j, j < maxAttempts →
          s.url_exists (generate_short_code (choices j) len) = true)
    ∧ (∀ choices2 : Nat → Nat → Nat,
        (∀ i, i < maxAttempts → choices i = choices2 i) →
        generate_unique_short_code s choices len maxAttempts
          = generate_unique_short_code s choices2 len maxAttempts) := by
  refine ⟨?_, ?_, ?_⟩
  · intro c
    have := genUniqueFrom_some_iff s choices len maxAttempts 0 c
    simpa [generate_unique_short_code, Nat.zero_add] using this
  · have := genUniqueFrom_none_iff s choices len maxAttempts 0
    simpa [generate_unique_short_code, Nat.zero_add] using this
  · intro choices2 hagree
    have := genUniqueFrom_congr s choices choices2 len maxAttempts 0
      (fun i h1 h2 => hagree i (by omega))
    simpa [generate_unique_short_code] using this

/-- Claim C6 witness: on an empty store the very first candidate is returned. -/
theorem generate_unique_short_code_spec_witness :
    ∃ j, j < 10 ∧ "aaaaaa" = generate_short_code ((fun _ _ => 0) j) 6
      ∧ (URLStore.mk []).url_exists (generate_short_code ((fun _ _ => 0) j) 6) = false
      ∧ ∀ k, k < j →
          (URLStore.mk []).url_exists (generate_short_code ((fun _ _ => 0) k) 6) = true :=
  ((generate_unique_short_code_spec (URLStore.mk []) (fun _ _ => 0) 6 10).1 "aaaaaa").mp rfl

/-- Claim C9: every successful shorten returns a short code of exactly the
configured length 6 whose characters all come from the 62-symbol alphanumeric
alphabet, and a short URL equal to the default base origin
`http://localhost:5000` followed by a slash and the code. -/
theorem shorten_code_format (s : URLStore) (raw : String) (choices : Nat → Nat → Nat)
    (now code surl : String) (s2 : URLStore)
    (h : shorten s raw choices now = Except.ok ((code, surl), s2)) :
    code.length = 6
    ∧ (∀ ch ∈ code.data, ch ∈ alphanumAlphabet)
    ∧ surl = "http://localhost:5000/" ++ code := by
  unfold shorten at h
  cases hval : validate_url (sanitize_url raw) with
  | mk valid msg =>
    rw [hval] at h
    cases valid with
    | false => simp only [] at h; exact absurd h (by simp)
    | true =>
      simp only [] at h
      cases hgen : generate_unique_short_code s choices 6 10 with
      | none => rw [hgen] at h; simp only [] at h; exact absurd h (by simp)
      | some code0 =>
        rw [hgen] at h
        simp only [] at h
        cases hcr : s.create_url_mapping code0 (sanitize_url raw) now with
        | mk res st =>
          rw [hcr] at h
          cases res with
          | error e => simp only [] at h; exact absurd h (by simp)
          | ok rec0 =>
            simp only [Except.ok.injEq, Prod.mk.injEq] at h
            obtain ⟨⟨hc, hs⟩, hst⟩ := h
            subst hc
            subst hs
            obtain ⟨⟨i, hci⟩, _⟩ := genUniqueFrom_some_shape s choices 6 10 0 code0 hgen
            refine ⟨?_, ?_, ?_⟩
            · rw [hci]
              exact generate_short_code_length _ 6
            · rw [hci]
              exact generate_short_code_chars _ 6
            · rfl

/-- Claim C9 witness: a concrete successful shorten produces the expected
length-6 alphanumeric code and formatted short URL. -/
theorem shorten_code_format_witness :
    ("aaaaaa" : String).length = 6
    ∧ (∀ ch ∈ ("aaaaaa" : String).data, ch ∈ alphanumAlphabet)
    ∧ ("http://localhost:5000/aaaaaa" : String) = "http://localhost:5000/" ++ "aaaaaa" :=
  shorten_code_format (URLStore.mk []) "https://w.example.net" (fun _ _ => 0) "t0"
    "aaaaaa" "http://localhost:5000/aaaaaa"
    (URLStore.mk [("aaaaaa", ⟨"https://w.example.net", "aaaaaa", 0, "t0"⟩)]) rfl

/-- Claim C3 counterexample: the URL `https://example.com ` (trailing space)
passes `validate_url` unchanged, `shorten` succeeds on it, but resolution
returns the trimmed URL, not the URL that was passed to shorten. -/
theorem roundtrip_counterexample :
    (validate_url "https://example.com ").1 = true
    ∧ shorten (URLStore.mk []) "https://example.com " (fun _ _ => 0) "t0"
        = Except.ok (("aaaaaa", "http://localhost:5000/aaaaaa"),
            URLStore.mk [("aaaaaa", ⟨"https://example.com", "aaaaaa", 0, "t0"⟩)])
    ∧ (resolve (URLStore.mk [("aaaaaa", ⟨"https://example.com", "aaaaaa", 0, "t0"⟩)])
          "aaaaaa").1
        ≠ some "https://example.com " :=
  ⟨by decide, rfl, by decide⟩

/-- Claim C3 amended: for every URL accepted by the pipeline, a successful
shorten followed by resolve returns the sanitized (trimmed) input — equal to
the original input whenever that input carries no surrounding whitespace —
and the resolution moves the new record's clicks from 0 to exactly 1. -/
theorem shorten_resolve_roundtrip (s : URLStore) (raw : String)
    (choices : Nat → Nat → Nat) (now code surl : String) (s2 : URLStore)
    (h : shorten s raw choices now = Except.ok ((code, surl), s2)) :
    (resolve s2 code).1 = some (sanitize_url raw)
    ∧ (resolve s2 code).2.get_url_mapping code
        = some ⟨sanitize_url raw, code, 1, now⟩
    ∧ (sanitize_url raw = raw → (resolve s2 code).1 = some raw) := by
  unfold shorten at h
  cases hval : validate_url (sanitize_url raw) with
  | mk valid msg =>
    rw [hval] at h
    cases valid with
    | false => simp only [] at h; exact absurd h (by simp)
    | true =>
      simp only [] at h
      cases hgen : generate_unique_short_code s choices 6 10 with
      | none => rw [hgen] at h; simp only [] at h; exact absurd h (by simp)
      | some code0 =>
        rw [hgen] at h
        simp only [] at h
        cases hcr : s.create_url_mapping code0 (sanitize_url raw) now with
        | mk res st =>
          rw [hcr] at h
          cases res with
          | error e => simp only [] at h; exact absurd h (by simp)
          | ok rec0 =>
            simp only [Except.ok.injEq, Prod.mk.injEq] at h
            obtain ⟨⟨hc, hs⟩, hst⟩ := h
            subst hc
            subst hst
            by_cases hex : (s.get_url_mapping code0).isSome = true
            · rw [create_of_present s code0 (sanitize_url raw) now hex] at hcr
              simp only [Prod.mk.injEq] at hcr
              exact absurd hcr.1 (by simp)
            · have hnone : s.get_url_mapping code0 = none := by
                cases hl : s.get_url_mapping code0 with
                | none => rfl
                | some x => rw [hl] at hex; simp at hex
              rw [create_of_absent s code0 (sanitize_url raw) now hnone] at hcr
              simp only [Prod.mk.injEq] at hcr
              obtain ⟨-, hs2⟩ := hcr
              have hget : st.get_url_mapping code0
                  = some ⟨sanitize_url raw, code0, 0, now⟩ := by
                rw [← hs2]
                show lookupKey (s.urls ++ [(code0, _)]) code0 = _
                exact lookupKey_append_self _ _ _ hnone
              have hres : resolve st code0
                  = (some (sanitize_url raw), (st.increment_clicks code0).2) := by
                unfold resolve
                rw [hget]
              refine ⟨?_, ?_, ?_⟩
              · rw [hres]
              · rw [hres]
                show ((st.increment_clicks code0).2).get_url_mapping code0 = _
                rw [get_increment_self, hget]
                rfl
              · intro he
                rw [hres, he]

/-- Claim C3 amended witness: a whitespace-free URL round-trips exactly, with
one click counted. -/
theorem shorten_resolve_roundtrip_witness :
    (resolve (URLStore.mk [("aaaaaa", ⟨"https://w.example.org", "aaaaaa", 0, "t0"⟩)])
        "aaaaaa").1
      = some "https://w.example.org" :=
  (shorten_resolve_roundtrip (URLStore.mk []) "https://w.example.org" (fun _ _ => 0)
    "t0" "aaaaaa" "http://localhost:5000/aaaaaa"
    (URLStore.mk [("aaaaaa", ⟨"https://w.example.org", "aaaaaa", 0, "t0"⟩)]) rfl).2.2 rfl

/-- Claim C1 counterexample: in the reference-semantics model, `create` on an
empty store returns the copy at address 1 while the store keeps address 0;
`get` then returns address 0 — the store's own record object — and a caller
writing clicks 99 through that returned reference changes the record held
inside the store (which previously read clicks 0). -/
theorem get_returns_alias_counterexample :
    (RefURLStore.mk [] []).create_url_mapping "abc123" "https://example.com/page" "t0"
      = (Except.ok 1, RefURLStore.mk
          [⟨"https://example.com/page", "abc123", 0, "t0"⟩,
           ⟨"https://example.com/page", "abc123", 0, "t0"⟩]
          [("abc123", 0)])
    ∧ (RefURLStore.mk
          [⟨"https://example.com/page", "abc123", 0, "t0"⟩,
           ⟨"https://example.com/page", "abc123", 0, "t0"⟩]
          [("abc123", 0)]).get_url_mapping "abc123" = some 0
    ∧ (RefURLStore.mk
          [⟨"https://example.com/page", "abc123", 0, "t0"⟩,
           ⟨"https://example.com/page", "abc123", 0, "t0"⟩]
          [("abc123", 0)]).recordAt "abc123"
        = some ⟨"https://example.com/page", "abc123", 0, "t0"⟩
    ∧ ((RefURLStore.mk
          [⟨"https://example.com/page", "abc123", 0, "t0"⟩,
           ⟨"https://example.com/page", "abc123", 0, "t0"⟩]
          [("abc123", 0)]).writeClicks 0 99).recordAt "abc123"
        = some ⟨"https://example.com/page", "abc123", 99, "t0"⟩ :=
  ⟨rfl, rfl, rfl, rfl⟩

/-- Claim C1 amended: `create_url_mapping` does return a copy — mutating the
record a successful create hands back changes no record held inside a
well-formed store, and a later `increment_clicks` on the code leaves that
returned copy untouched — but `get_url_mapping` returns a reference to the
store's own record: a caller mutation through the returned value is visible
in the store's record for that code. -/
theorem store_copy_semantics (s : RefURLStore) (code url now : String)
    (hwf : s.wellFormed) :
    (∀ a s2, s.create_url_mapping code url now = (Except.ok a, s2) →
        (∀ n c, (s2.writeClicks a n).recordAt c = s2.recordAt c)
        ∧ heapRead ((s2.increment_clicks code).2).heap a = heapRead s2.heap a)
    ∧ (∀ a, s.get_url_mapping code = some a →
        ∀ n, ∃ r, heapRead s.heap a = some r
          ∧ (s.writeClicks a n).recordAt code = some { r with clicks := n }) := by
  constructor
  · intro a s2 hcr
    by_cases hex : (lookupKey s.urls code).isSome = true
    · unfold RefURLStore.create_url_mapping at hcr
      rw [if_pos hex] at hcr
      simp only [Prod.mk.injEq] at hcr
      exact absurd hcr.1 (by simp)
    · have hnone : lookupKey s.urls code = none := by
        cases hl : lookupKey s.urls code with
        | none => rfl
        | some x => rw [hl] at hex; simp at hex
      unfold RefURLStore.create_url_mapping at hcr
      rw [if_neg hex] at hcr
      simp only [Prod.mk.injEq, Except.ok.injEq] at hcr
      obtain ⟨ha, hs2⟩ := hcr
      subst ha
      subst hs2
      constructor
      · intro n c
        have hr1 : heapRead
            (s.heap ++ [⟨url, code, 0, now⟩, ⟨url, code, 0, now⟩])
            (s.heap.length + 1) = some ⟨url, code, 0, now⟩ := by
          have := heapRead_append_right s.heap
            [⟨url, code, 0, now⟩, ⟨url, code, 0, now⟩] 1
          simpa using this
        unfold RefURLStore.writeClicks
        rw [hr1]
        simp only []
        unfold RefURLStore.recordAt
        cases hl : lookupKey (s.urls ++ [(code, s.heap.length)]) c with
        | none => rfl
        | some addr =>
          simp only [Option.some_bind]
          have haddr : addr ≠ s.heap.length + 1 := by
            have hmem := lookupKey_mem _ _ _ hl
            rcases List.mem_append.mp hmem with hin | hsing
            · have h2 : addr < s.heap.length := hwf (c, addr) hin
              omega
            · simp at hsing
              obtain ⟨-, h2⟩ := hsing
              omega
          exact heapRead_write_ne _ _ _ _ (fun he => haddr he.symm)
      · have hlk : lookupKey (s.urls ++ [(code, s.heap.length)]) code
            = some s.heap.length := lookupKey_append_self _ _ _ hnone
        have hr0 : heapRead
            (s.heap ++ [⟨url, code, 0, now⟩, ⟨url, code, 0, now⟩])
            s.heap.length = some ⟨url, code, 0, now⟩ := by
          have := heapRead_append_right s.heap
            [⟨url, code, 0, now⟩, ⟨url, code, 0, now⟩] 0
          simpa using this
        unfold RefURLStore.increment_clicks
        rw [hlk]
        simp only []
        rw [hr0]
        simp only []
        exact heapRead_write_ne _ _ _ _ (by omega)
  · intro a hga n
    have hmem := lookupKey_mem _ _ _ hga
    have hlt : a < s.heap.length := hwf (code, a) hmem
    obtain ⟨r, hr⟩ := heapRead_lt s.heap a hlt
    refine ⟨r, hr, ?_⟩
    unfold RefURLStore.writeClicks
    rw [hr]
    simp only []
    unfold RefURLStore.recordAt
    show (lookupKey s.urls code).bind
      (heapRead (heapWrite s.heap a { r with clicks := n })) = _
    rw [show lookupKey s.urls code = some a from hga]
    simp only [Option.some_bind]
    exact heapRead_write_self s.heap a _ hlt

/-- Claim C1 amended witness: mutating the copy returned by a concrete create
(address 1) leaves the store's record view unchanged. -/
theorem store_copy_semantics_witness :
    ((RefURLStore.mk
        [⟨"https://c.example.com", "abc123", 0, "t0"⟩,
         ⟨"https://c.example.com", "abc123", 0, "t0"⟩]
        [("abc123", 0)]).writeClicks 1 99).recordAt "abc123"
      = (RefURLStore.mk
        [⟨"https://c.example.com", "abc123", 0, "t0"⟩,
         ⟨"https://c.example.com", "abc123", 0, "t0"⟩]
        [("abc123", 0)]).recordAt "abc123" :=
  ((store_copy_semantics (RefURLStore.mk [] []) "abc123" "https://c.example.com" "t0"
      (by intro p hp; simp at hp)).1 1
    (RefURLStore.mk
        [⟨"https://c.example.com", "abc123", 0, "t0"⟩,
         ⟨"https://c.example.com", "abc123", 0, "t0"⟩]
        [("abc123", 0)]) rfl).1 99 "abc123"
